import Mathlib

/-!
Student Task Manager (script.js).

A shallow embedding of the task list manager of `script.js` and the proofs of
its specified properties.

* JavaScript strings are sequences of UTF-16 code units (`JStr`).
* The mutable globals `tasks` and `editingId`, the storage slot `stm_tasks`
  and the form fields are the fields of `State`; an event handler is a
  function from a state to a state together with the trace of the calls it
  made (`saveTasks`, `form.reset`, `render`).
* `JSON.stringify`, `JSON.parse`, `String.prototype.trim`, `Array.prototype.sort`
  and the arithmetic of `Number` are modelled after ECMA-262; the collation of
  `String.prototype.localeCompare` is a parameter of `render`.
-/

namespace TaskManager

/-! ## Strings -/

/-- A JavaScript string: its sequence of UTF-16 code units. -/
abbrev JStr := List Nat

/-- The UTF-16 code units of one Unicode scalar value. -/
def utf16Char (c : Char) : List Nat :=
  if c.toNat < 65536 then [c.toNat]
  else [55296 + (c.toNat - 65536) / 1024, 56320 + (c.toNat - 65536) % 1024]

/-- The JavaScript string denoted by a literal. -/
def utf16 (s : String) : JStr := s.toList.flatMap utf16Char

/-- WhiteSpace and LineTerminator code points of ECMA-262, the ones that
`String.prototype.trim` strips. -/
def isWhiteSpace (c : Nat) : Bool :=
  c = 9 || c = 10 || c = 11 || c = 12 || c = 13 || c = 32 || c = 160 || c = 5760 ||
  (8192 ≤ c && c ≤ 8202) || c = 8232 || c = 8233 || c = 8239 || c = 8287 ||
  c = 12288 || c = 65279

/-- The method `String.prototype.trim`: strips white space at both ends. -/
def trim (s : JStr) : JStr :=
  ((s.dropWhile isWhiteSpace).reverse.dropWhile isWhiteSpace).reverse

/-- Truthiness of a string: only the empty string is falsy. -/
def truthyStr (s : JStr) : Bool := !s.isEmpty

/-- The expression `s || d` on strings. -/
def orElse (s d : JStr) : JStr := if truthyStr s then s else d

/-- The decimal text `String(n)` of a non-negative integer `n`. -/
def natToJStr (n : Nat) : JStr := (Nat.toDigits 10 n).map Char.toNat

/-- The decimal text `String(n)` of an integer `n`. -/
def intToJStr : Int → JStr
  | Int.ofNat n => natToJStr n
  | Int.negSucc n => 45 :: natToJStr (n + 1)

/-- The method `padStart` with target length two and the pad character zero. -/
def padStart2 (s : JStr) : JStr := List.replicate (2 - s.length) 48 ++ s

/-- Code-unit lexicographic three-way comparison of two strings
(negative, zero or positive as the first is below, equal to or above the second). -/
def compareUnits : JStr → JStr → Int
  | [], [] => 0
  | [], _ :: _ => -1
  | _ :: _, [] => 1
  | a :: as, b :: bs => if a < b then -1 else if b < a then 1 else compareUnits as bs

/-! ## Data model -/

/-- A task record: `{ id, title, description, deadline (ISO or ''), status, createdAt (ISO) }`. -/
structure Task where
  id : JStr
  title : JStr
  description : JStr
  deadline : JStr
  status : JStr
  createdAt : JStr
deriving DecidableEq

/-- The four values of the form inputs `els.title`, `els.description`,
`els.deadline` and `els.status`. -/
structure Form where
  title : JStr
  description : JStr
  deadline : JStr
  status : JStr
deriving DecidableEq

/-- The local calendar fields of a `Date`: `getFullYear()`, `getMonth()` (0 to 11)
and `getDate()`. -/
structure LocalDate where
  fullYear : Int
  month : Nat
  date : Nat
deriving DecidableEq

/-- What a handler obtains from its surroundings: the identifier the generator
returns on this call, the current `Date`, and the values `form.reset()` restores. -/
structure Env where
  genId : JStr
  now : LocalDate
  formDefaults : Form

/-- The function `nowISO` applied to the current date. -/
def nowISO (d : LocalDate) : JStr :=
  intToJStr d.fullYear ++ 45 :: padStart2 (natToJStr (d.month + 1)) ++
    45 :: padStart2 (natToJStr d.date)

/-! ## JSON text -/

/-- One lowercase hexadecimal digit. -/
def hexDigit (d : Nat) : Nat := if d < 10 then 48 + d else 87 + d

/-- UnicodeEscape: a backslash, `u` and four lowercase hexadecimal digits. -/
def unicodeEscape (c : Nat) : JStr :=
  [92, 117, hexDigit (c / 4096 % 16), hexDigit (c / 256 % 16), hexDigit (c / 16 % 16),
    hexDigit (c % 16)]

/-- A leading surrogate code unit. -/
def isHighSurrogate (c : Nat) : Bool := 55296 ≤ c && c ≤ 56319

/-- A trailing surrogate code unit. -/
def isLowSurrogate (c : Nat) : Bool := 56320 ≤ c && c ≤ 57343

/-- The text QuoteJSONString emits for one code unit that is not part of a
surrogate pair. -/
def quoteUnit (c : Nat) : JStr :=
  if c = 8 then [92, 98]
  else if c = 9 then [92, 116]
  else if c = 10 then [92, 110]
  else if c = 12 then [92, 102]
  else if c = 13 then [92, 114]
  else if c = 34 then [92, 34]
  else if c = 92 then [92, 92]
  else if c < 32 || isHighSurrogate c || isLowSurrogate c then unicodeEscape c
  else [c]

/-- The characters QuoteJSONString puts between the two quotation marks: a
surrogate pair is copied, every other code unit goes through `quoteUnit`. -/
def quoteBody : JStr → JStr
  | [] => []
  | [c] => quoteUnit c
  | c :: d :: rest =>
    if isHighSurrogate c && isLowSurrogate d then c :: d :: quoteBody rest
    else quoteUnit c ++ quoteBody (d :: rest)

/-- QuoteJSONString. -/
def quoteJSONString (s : JStr) : JStr := 34 :: quoteBody s ++ [34]

/-- The texts of the items of an array or object, separated by commas. -/
def joinComma : List JStr → JStr
  | [] => []
  | [x] => x
  | x :: y :: rest => x ++ 44 :: joinComma (y :: rest)

/-- One member of a serialized object: the quoted key, a colon and the quoted
string value. -/
def serializeMember (key value : JStr) : JStr :=
  quoteJSONString key ++ 58 :: quoteJSONString value

/-- The members of a task object in property order: `id` first, then the four
fields spread from `newData`, then `createdAt`. -/
def Task.members (t : Task) : List (JStr × JStr) :=
  [(utf16 "id", t.id), (utf16 "title", t.title), (utf16 "description", t.description),
   (utf16 "deadline", t.deadline), (utf16 "status", t.status),
   (utf16 "createdAt", t.createdAt)]

/-- The text `JSON.stringify` produces for one task object. -/
def serializeTask (t : Task) : JStr :=
  123 :: joinComma (t.members.map fun kv => serializeMember kv.1 kv.2) ++ [125]

/-- The text `JSON.stringify(tasks)` produces for an array of task objects. -/
def stringifyTasks (ts : List Task) : JStr :=
  91 :: joinComma (ts.map serializeTask) ++ [93]

/-- A value `JSON.parse` can return. A number is kept as the exact decimal
`± mant * 10 ^ exp` that its text denotes; an object keeps its members in the
order of the text. -/
inductive JVal where
  | null
  | bool (b : Bool)
  | num (neg : Bool) (mant : Nat) (exp : Int)
  | str (s : JStr)
  | arr (xs : List JVal)
  | obj (kvs : List (JStr × JVal))

/-- A number text is falsy when the double nearest to it is zero: the
mantissa is zero, or the value is at most `2 ^ (-1075)`, half the least
positive double. -/
def numIsZero (mant : Nat) (exp : Int) : Bool :=
  mant = 0 || (exp < 0 && mant * 2 ^ 1075 ≤ 10 ^ (-exp).toNat)

/-- ToBoolean on a parsed value. -/
def JVal.truthy : JVal → Bool
  | .null => false
  | .bool b => b
  | .num _ m e => !numIsZero m e
  | .str s => truthyStr s
  | .arr _ => true
  | .obj _ => true

/-- The task object as a value. -/
def Task.toJVal (t : Task) : JVal :=
  .obj (t.members.map fun kv => (kv.1, JVal.str kv.2))

/-- The array of task objects as a value. -/
def tasksToJVal (ts : List Task) : JVal := .arr (ts.map Task.toJVal)

/-- JSON white space: tab, line feed, carriage return and space. -/
def isJsonWs (c : Nat) : Bool := c = 9 || c = 10 || c = 13 || c = 32

/-- Skips JSON white space. -/
def skipWs : JStr → JStr
  | [] => []
  | c :: cs => if isJsonWs c then skipWs cs else c :: cs

/-- The value of a hexadecimal digit of either case. -/
def hexVal (c : Nat) : Option Nat :=
  if 48 ≤ c ∧ c ≤ 57 then some (c - 48)
  else if 97 ≤ c ∧ c ≤ 102 then some (c - 87)
  else if 65 ≤ c ∧ c ≤ 70 then some (c - 55)
  else none

/-- The code unit a four-digit hexadecimal escape denotes. -/
def hex4 (a b c d : Nat) : Option Nat :=
  match hexVal a, hexVal b, hexVal c, hexVal d with
  | some x, some y, some z, some w => some (((x * 16 + y) * 16 + z) * 16 + w)
  | _, _, _, _ => none

/-- The code unit a single-character escape denotes. -/
def simpleEscape (c : Nat) : Option Nat :=
  if c = 34 then some 34
  else if c = 92 then some 92
  else if c = 47 then some 47
  else if c = 98 then some 8
  else if c = 102 then some 12
  else if c = 110 then some 10
  else if c = 114 then some 13
  else if c = 116 then some 9
  else none

/-- Reads a JSON string after its opening quotation mark: returns the
string and the text after the closing quotation mark. -/
def parseStringBody : JStr → Option (JStr × JStr)
  | [] => none
  | 92 :: 117 :: a :: b :: c :: d :: rest =>
    match hex4 a b c d, parseStringBody rest with
    | some u, some (s, r) => some (u :: s, r)
    | _, _ => none
  | 92 :: e :: rest =>
    match simpleEscape e, parseStringBody rest with
    | some u, some (s, r) => some (u :: s, r)
    | _, _ => none
  | c :: rest =>
    if c = 34 then some ([], rest)
    else if c = 92 ∨ c < 32 then none
    else
      match parseStringBody rest with
      | some (s, r) => some (c :: s, r)
      | none => none

/-- Reads a maximal run of decimal digits: their values and the rest. -/
def takeDigits : JStr → List Nat × JStr
  | [] => ([], [])
  | c :: cs =>
    if 48 ≤ c ∧ c ≤ 57 then ((c - 48) :: (takeDigits cs).1, (takeDigits cs).2)
    else ([], c :: cs)

/-- The number a list of decimal digits denotes. -/
def digitsVal (ds : List Nat) : Nat := ds.foldl (fun a d => 10 * a + d) 0

/-- Reads the optional fraction of a number: its digits and the rest. -/
def parseFraction : JStr → Option (List Nat × JStr)
  | 46 :: r => if (takeDigits r).1 = [] then none else some (takeDigits r)
  | s => some ([], s)

/-- Reads the optional exponent of a number: its value and the rest. -/
def parseExponent : JStr → Option (Int × JStr)
  | [] => some (0, [])
  | c :: r =>
    if c = 101 ∨ c = 69 then
      match r with
      | 43 :: r1 =>
        if (takeDigits r1).1 = [] then none
        else some ((digitsVal (takeDigits r1).1 : Int), (takeDigits r1).2)
      | 45 :: r1 =>
        if (takeDigits r1).1 = [] then none
        else some (-(digitsVal (takeDigits r1).1 : Int), (takeDigits r1).2)
      | _ =>
        if (takeDigits r).1 = [] then none
        else some ((digitsVal (takeDigits r).1 : Int), (takeDigits r).2)
    else some (0, c :: r)

/-- Reads a JSON number after its optional minus sign. -/
def parseUnsigned (neg : Bool) (s : JStr) : Option (JVal × JStr) :=
  let ip := (takeDigits s).1
  if ip = [] then none
  else if 1 < ip.length ∧ ip.head? = some 0 then none
  else
    match parseFraction (takeDigits s).2 with
    | none => none
    | some (fp, s3) =>
      match parseExponent s3 with
      | none => none
      | some (ex, s4) => some (JVal.num neg (digitsVal (ip ++ fp)) (ex - fp.length), s4)

/-- Reads a JSON number. -/
def parseNumber : JStr → Option (JVal × JStr)
  | 45 :: r => parseUnsigned true r
  | s => parseUnsigned false s

/-- Reads one of the literals `true`, `false` and `null`. -/
def parseLiteral : JStr → Option (JVal × JStr)
  | 116 :: 114 :: 117 :: 101 :: r => some (JVal.bool true, r)
  | 102 :: 97 :: 108 :: 115 :: 101 :: r => some (JVal.bool false, r)
  | 110 :: 117 :: 108 :: 108 :: r => some (JVal.null, r)
  | _ => none

mutual
/-- Reads one JSON value at the head of the text (no leading white space). The
first argument bounds the number of nested calls. -/
def parseValue : Nat → JStr → Option (JVal × JStr)
  | 0, _ => none
  | _ + 1, [] => none
  | n + 1, c :: cs =>
    if c = 91 then
      match skipWs cs with
      | 93 :: r => some (JVal.arr [], r)
      | s => (parseElements n s).map fun p => (JVal.arr p.1, p.2)
    else if c = 123 then
      match skipWs cs with
      | 125 :: r => some (JVal.obj [], r)
      | s => (parseMembers n s).map fun p => (JVal.obj p.1, p.2)
    else if c = 34 then
      (parseStringBody cs).map fun p => (JVal.str p.1, p.2)
    else if c = 45 ∨ (48 ≤ c ∧ c ≤ 57) then parseNumber (c :: cs)
    else parseLiteral (c :: cs)
/-- Reads the elements of a non-empty array up to and including the closing
bracket. -/
def parseElements : Nat → JStr → Option (List JVal × JStr)
  | 0, _ => none
  | n + 1, s =>
    match parseValue n s with
    | none => none
    | some (v, r) =>
      match skipWs r with
      | 44 :: r1 => (parseElements n (skipWs r1)).map fun p => (v :: p.1, p.2)
      | 93 :: r1 => some ([v], r1)
      | _ => none
/-- Reads the members of a non-empty object up to and including the closing
brace. -/
def parseMembers : Nat → JStr → Option (List (JStr × JVal) × JStr)
  | 0, _ => none
  | n + 1, s =>
    match s with
    | 34 :: s1 =>
      match parseStringBody s1 with
      | none => none
      | some (k, r) =>
        match skipWs r with
        | 58 :: r1 =>
          match parseValue n (skipWs r1) with
          | none => none
          | some (v, r2) =>
            match skipWs r2 with
            | 44 :: r3 => (parseMembers n (skipWs r3)).map fun p => ((k, v) :: p.1, p.2)
            | 125 :: r3 => some ([(k, v)], r3)
            | _ => none
        | _ => none
    | _ => none
end

/-- The function `JSON.parse` on a text: `none` stands for the SyntaxError it
throws. The bound `s.length + 1` is never the reason for a failure: every
larger bound gives the same result (`jsonParse_bound_free`). -/
def jsonParse (s : JStr) : Option JVal :=
  match parseValue (s.length + 1) (skipWs s) with
  | some (v, r) => if skipWs r = [] then some v else none
  | none => none

/-! ## Storage -/

/-- The function `loadTasks`. The argument is what `localStorage.getItem("stm_tasks")`
returns: `none` is `null`, which `JSON.parse` converts to the text `null`. A
SyntaxError is caught and yields the empty array; so does a falsy value,
through `|| []`; every other parsed value is returned as it is. -/
def loadTasks (stored : Option JStr) : JVal :=
  match jsonParse (stored.getD (utf16 "null")) with
  | none => JVal.arr []
  | some v => if v.truthy then v else JVal.arr []

/-- The last member with the given key, as property lookup finds it. -/
def lookupKey (k : JStr) (kvs : List (JStr × JVal)) : Option JVal :=
  (kvs.reverse.find? fun kv => kv.1 = k).map fun kv => kv.2

/-- The string a value is, when it is one. -/
def JVal.asStr : JVal → Option JStr
  | .str s => some s
  | _ => none

/-- Reads a value as a task record: an object whose six fields are strings. -/
def decodeTask : JVal → Option Task
  | .obj kvs =>
    match (lookupKey (utf16 "id") kvs).bind JVal.asStr,
          (lookupKey (utf16 "title") kvs).bind JVal.asStr,
          (lookupKey (utf16 "description") kvs).bind JVal.asStr,
          (lookupKey (utf16 "deadline") kvs).bind JVal.asStr,
          (lookupKey (utf16 "status") kvs).bind JVal.asStr,
          (lookupKey (utf16 "createdAt") kvs).bind JVal.asStr with
    | some i, some t, some d, some dl, some s, some c => some ⟨i, t, d, dl, s, c⟩
    | _, _, _, _, _, _ => none
  | _ => none

/-- Reads each value of a list as a task record. -/
def decodeAll : List JVal → Option (List Task)
  | [] => some []
  | v :: vs =>
    match decodeTask v, decodeAll vs with
    | some t, some ts => some (t :: ts)
    | _, _ => none

/-- Reads a value as a sequence of task records: `none` when it is not an
array of task records. -/
def decodeTasks : JVal → Option (List Task)
  | .arr xs => decodeAll xs
  | _ => none

/-! ## State and event handlers -/

/-- The mutable state: the globals `tasks` and `editingId`, the content of the
storage slot `stm_tasks` (`none` when the key is absent), the form inputs and
the label of the submit button. -/
structure State where
  tasks : List Task
  editingId : Option JStr
  storage : Option JStr
  form : Form
  submitLabel : JStr
deriving DecidableEq

/-- The calls a handler makes, in order. -/
inductive Call where
  | saveTasks (text : JStr)
  | formReset
  | render
deriving DecidableEq

/-- The function `saveTasks`: overwrites the slot with `JSON.stringify(tasks)`. -/
def saveTasks (st : State) : State :=
  { st with storage := some (stringifyTasks st.tasks) }

/-- The object `newData` the submit handler builds from the form. -/
def newData (title : JStr) (f : Form) : Form :=
  { title := title, description := trim f.description,
    deadline := orElse f.deadline [], status := f.status }

/-- The object `{ ...t, ...newData }`. -/
def mergeTask (t : Task) (d : Form) : Task :=
  { t with title := d.title, description := d.description, deadline := d.deadline,
           status := d.status }

/-- Truthiness of `editingId`: `null` and the empty string are falsy. -/
def truthyId : Option JStr → Bool
  | none => false
  | some s => truthyStr s

/-- The submit handler of the form. -/
def submit (env : Env) (st : State) : State × List Call :=
  let title := trim st.form.title
  if !truthyStr title then (st, [])
  else
    let d := newData title st.form
    let st1 : State :=
      if truthyId st.editingId then
        { st with
          tasks := st.tasks.map fun t => if some t.id = st.editingId then mergeTask t d else t
          editingId := none
          submitLabel := utf16 "Add Task" }
      else
        { st with
          tasks := st.tasks ++
            [{ id := env.genId, title := d.title, description := d.description,
               deadline := d.deadline, status := d.status, createdAt := nowISO env.now }] }
    let st2 := saveTasks st1
    ({ st2 with form := env.formDefaults }, [Call.saveTasks (stringifyTasks st1.tasks),
      Call.formReset, Call.render])

/-- The click handler of the Delete button of the card of a task with the
given id. -/
def deleteClick (st : State) (id : JStr) : State × List Call :=
  let st1 := { st with tasks := st.tasks.filter fun t => t.id ≠ id }
  (saveTasks st1, [Call.saveTasks (stringifyTasks st1.tasks), Call.render])

/-- The click handler of the Clear All button; `confirmed` is what `confirm`
returns. -/
def clearAllClick (confirmed : Bool) (st : State) : State × List Call :=
  if st.tasks.length = 0 then (st, [])
  else if confirmed then
    (saveTasks { st with tasks := [] }, [Call.saveTasks (stringifyTasks []), Call.render])
  else (st, [])

/-! ## Numbers -/

/-- The nearest integer, ties to the even one. -/
def roundHalfEven (q : ℚ) : ℤ :=
  if q - ⌊q⌋ < 1 / 2 then ⌊q⌋
  else if 1 / 2 < q - ⌊q⌋ then ⌊q⌋ + 1
  else if ⌊q⌋ % 2 = 0 then ⌊q⌋ else ⌊q⌋ + 1

/-- The binary64 value nearest to a rational (round to nearest, ties to even),
for magnitudes below `2 ^ 1024`: 53 significant bits, least exponent `-1022`. -/
def toDouble (q : ℚ) : ℚ :=
  if q = 0 then 0
  else roundHalfEven (q / 2 ^ (max (Int.log 2 |q|) (-1022) - 52)) *
    2 ^ (max (Int.log 2 |q|) (-1022) - 52)

/-- Number division `a / b` of two doubles, `b` not zero. -/
def numDiv (a b : ℚ) : ℚ := toDouble (a / b)

/-- Number multiplication `a * b` of two doubles. -/
def numMul (a b : ℚ) : ℚ := toDouble (a * b)

/-- The function `Math.round`: the nearest integer, ties toward positive infinity. -/
def mathRound (x : ℚ) : ℤ := ⌊x + 1 / 2⌋

/-! ## Rendering -/

/-- What `updateProgress` displays: the counts, the text of `progressText` and
the percentage that sets the width of `progressBar`. -/
structure Progress where
  done : Nat
  total : Nat
  text : JStr
  pct : ℤ
deriving DecidableEq

/-- The function `updateProgress`, over the global `tasks`. -/
def updateProgress (tasks : List Task) : Progress :=
  let total := tasks.length
  let done := (tasks.filter fun t => t.status = utf16 "Completed").length
  { done := done
    total := total
    text := natToJStr done ++ 47 :: natToJStr total ++ utf16 " tasks completed"
    pct := if total ≠ 0 then mathRound (numMul (numDiv done total) 100) else 0 }

/-- The method `Array.prototype.sort` with a comparator: a stable sort, here
by insertion. An element goes before the first later element that the
comparator does not put strictly before it. -/
def jsSort {α : Type} (cmp : α → α → Int) (l : List α) : List α :=
  l.insertionSort fun a b => cmp a b ≤ 0

/-- The comparator `byDeadline`; `coll` is `localeCompare`. -/
def byDeadline (coll : JStr → JStr → Int) (a b : Task) : Int :=
  coll (orElse a.deadline (utf16 "9999-12-31")) (orElse b.deadline (utf16 "9999-12-31"))

/-- The comparator `byCreated`. -/
def byCreated (coll : JStr → JStr → Int) (a b : Task) : Int := coll a.createdAt b.createdAt

/-- The comparator `byTitle`. -/
def byTitle (coll : JStr → JStr → Int) (a b : Task) : Int := coll a.title b.title

/-- What `render` shows: the cards in order and the progress summary. -/
structure View where
  data : List Task
  progress : Progress

/-- The array `data` that `render` builds: filter, then sort. -/
def renderData (coll : JStr → JStr → Int) (tasks : List Task) (filterValue sortValue : JStr) :
    List Task :=
  let data :=
    if filterValue ≠ utf16 "All" then tasks.filter fun t => t.status = filterValue
    else tasks
  if sortValue = utf16 "deadline-asc" then jsSort (byDeadline coll) data
  else if sortValue = utf16 "deadline-desc" then jsSort (fun a b => byDeadline coll b a) data
  else if sortValue = utf16 "created-desc" then jsSort (fun a b => byCreated coll b a) data
  else if sortValue = utf16 "created-asc" then jsSort (byCreated coll) data
  else if sortValue = utf16 "title-asc" then jsSort (byTitle coll) data
  else if sortValue = utf16 "title-desc" then jsSort (fun a b => byTitle coll b a) data
  else data

/-- The function `render`; `coll` is the collation of `localeCompare`, and the
two strings are the values of the filter and sort selectors. -/
def render (coll : JStr → JStr → Int) (tasks : List Task) (filterValue sortValue : JStr) :
    View :=
  { data := renderData coll tasks filterValue sortValue
    progress := updateProgress tasks }

/-! ## Calendar dates -/

/-- A decimal digit. -/
def isDigit (c : Nat) : Bool := 48 ≤ c && c ≤ 57

/-- The year, month and day that a text of the canonical form `YYYY-MM-DD`
denotes. -/
def dateFields : JStr → Option (Nat × Nat × Nat)
  | [a, b, c, d, p, e, f, q, g, h] =>
    if p = 45 ∧ q = 45 ∧ isDigit a ∧ isDigit b ∧ isDigit c ∧ isDigit d ∧ isDigit e ∧
        isDigit f ∧ isDigit g ∧ isDigit h then
      some ((((a - 48) * 10 + (b - 48)) * 10 + (c - 48)) * 10 + (d - 48),
            (e - 48) * 10 + (f - 48), (g - 48) * 10 + (h - 48))
    else none
  | _ => none

/-- An environment for the examples. -/
def sampleEnv : Env :=
  { genId := utf16 "id-2", now := { fullYear := 2024, month := 4, date := 1 },
    formDefaults := { title := [], description := [], deadline := [], status := utf16 "Pending" } }

/-- A task for the examples. -/
def sampleTask : Task :=
  { id := utf16 "id-1", title := utf16 "Essay", description := [], deadline := utf16 "2024-06-01",
    status := utf16 "Pending", createdAt := utf16 "2024-05-01" }

/-- A state in edit mode whose form holds a blank title. -/
def blankTitleEditing : State :=
  { tasks := [sampleTask], editingId := some (utf16 "id-1"), storage := none,
    form := { title := utf16 "  ", description := utf16 "d", deadline := [],
              status := utf16 "Pending" },
    submitLabel := utf16 "Update Task" }

/-- A state in create mode with a title in the form. -/
def sampleAdding : State :=
  { tasks := [sampleTask], editingId := none, storage := none,
    form := { title := utf16 "Lab report", description := [], deadline := [],
              status := utf16 "Pending" },
    submitLabel := utf16 "Add Task" }


/-- A task without a deadline. -/
def undatedTask : Task :=
  { id := utf16 "a", title := utf16 "Read", description := [], deadline := [],
    status := utf16 "Pending", createdAt := utf16 "2024-05-01" }

/-- A task whose deadline is the last day of the year 9999. -/
def lastDayTask : Task :=
  { id := utf16 "b", title := utf16 "Archive", description := [],
    deadline := utf16 "9999-12-31", status := utf16 "Pending",
    createdAt := utf16 "2024-05-01" }

/-- A task with a deadline in 2023. -/
def earlyTask : Task :=
  { id := utf16 "c", title := utf16 "Quiz", description := [],
    deadline := utf16 "2023-11-30", status := utf16 "Completed",
    createdAt := utf16 "2023-11-01" }

/-- Four tasks, one of them Completed. -/
def fourTasks : List Task := [undatedTask, sampleTask, earlyTask, lastDayTask]

/-- A state whose collection holds three tasks and whose slot is still empty. -/
def threeTaskState : State :=
  { tasks := [undatedTask, sampleTask, earlyTask], editingId := none, storage := none,
    form := sampleEnv.formDefaults, submitLabel := utf16 "Add Task" }

/-! ## Independence of the reader from its bound -/

/-- A successful `parseValue` under the bound `n` consumes at least one code
unit and succeeds with the same result under every bound that is at least the
number of code units consumed. -/
def ValueBoundFree (n : Nat) : Prop :=
  ∀ (s : JStr) (v : JVal) (r : JStr), parseValue n s = some (v, r) →
    r.length < s.length ∧ ∀ m, s.length ≤ m + r.length → parseValue m s = some (v, r)

/-- The same for `parseElements`. -/
def ElementsBoundFree (n : Nat) : Prop :=
  ∀ (s : JStr) (vs : List JVal) (r : JStr), parseElements n s = some (vs, r) →
    r.length < s.length ∧ ∀ m, s.length ≤ m + r.length → parseElements m s = some (vs, r)

/-- The same for `parseMembers`. -/
def MembersBoundFree (n : Nat) : Prop :=
  ∀ (s : JStr) (kvs : List (JStr × JVal)) (r : JStr), parseMembers n s = some (kvs, r) →
    r.length < s.length ∧ ∀ m, s.length ≤ m + r.length → parseMembers m s = some (kvs, r)

/-! ## The text of the current date -/

theorem toNat_digitChar {d : Nat} (h : d < 10) : (Nat.digitChar d).toNat = 48 + d := by
  interval_cases d <;> rfl

theorem natToJStr_one {n : Nat} (h : n < 10) : natToJStr n = [48 + n] := by
  interval_cases n <;> rfl

theorem natToJStr_two {n : Nat} (h1 : 10 ≤ n) (h2 : n < 100) :
    natToJStr n = [48 + n / 10, 48 + n % 10] := by
  interval_cases n <;> rfl

theorem natToJStr_four {n : Nat} (h1 : 1000 ≤ n) (h2 : n < 10000) :
    natToJStr n = [48 + n / 1000, 48 + n / 100 % 10, 48 + n / 10 % 10, 48 + n % 10] := by
  obtain ⟨k, hk⟩ : ∃ k, n + 1 = k + 4 := ⟨n - 3, by omega⟩
  have a1 : n / 10 ≠ 0 := by omega
  have a2 : n / 10 / 10 ≠ 0 := by omega
  have a3 : n / 10 / 10 / 10 ≠ 0 := by omega
  have a4 : n / 10 / 10 / 10 / 10 = 0 := by omega
  have b1 : n / 10 / 10 / 10 % 10 = n / 1000 := by omega
  have b2 : n / 10 / 10 % 10 = n / 100 % 10 := by omega
  unfold natToJStr Nat.toDigits
  rw [hk]
  simp only [Nat.toDigitsCore, a1, a2, a3, a4, if_true, if_false, List.map,
    toNat_digitChar (Nat.mod_lt _ (by norm_num : 10 > 0)), b1, b2]
  rw [toNat_digitChar (by omega : n / 1000 < 10)]

theorem padStart2_natToJStr {n : Nat} (h : n < 100) :
    padStart2 (natToJStr n) = [48 + n / 10, 48 + n % 10] := by
  interval_cases n <;> rfl

/-- For a four-digit year the function `nowISO` writes the canonical text of
the date: the text denotes the year, the month (counted from 1) and the day. -/
theorem dateFields_nowISO (y : Nat) (m d : Nat) (hy1 : 1000 ≤ y) (hy2 : y ≤ 9999)
    (hm : m < 12) (hd : d ≤ 31) :
    dateFields (nowISO { fullYear := (y : Int), month := m, date := d }) =
      some (y, m + 1, d) := by
  have hI : intToJStr (y : Int) = natToJStr y := rfl
  have e1 : ∀ x : Nat, x < 10 → isDigit (48 + x) = true := by
    intro x hx
    simp [isDigit]
    omega
  simp only [nowISO, hI, natToJStr_four hy1 (by omega : y < 10000),
    padStart2_natToJStr (by omega : m + 1 < 100), padStart2_natToJStr (by omega : d < 100),
    List.cons_append, List.nil_append, dateFields]
  rw [if_pos]
  · simp only [Nat.add_sub_cancel_left, Option.some.injEq, Prod.mk.injEq]
    omega
  · refine ⟨trivial, trivial, e1 _ (by omega), e1 _ (by omega), e1 _ (by omega), e1 _ (by omega),
      e1 _ (by omega), e1 _ (by omega), e1 _ (by omega), e1 _ (by omega)⟩

/-! ## The submit handler -/

theorem truthyStr_eq_true {s : JStr} (h : s ≠ []) : truthyStr s = true := by
  cases s with
  | nil => exact absurd rfl h
  | cons a l => rfl

theorem orElse_nil (s : JStr) : orElse s [] = s := by
  cases s <;> rfl

/-- C1. Submitting a form whose title is empty after trimming changes nothing:
the state (task collection, editing pointer, storage slot, form inputs) is the
one before the submission and the handler makes no call, in particular no
`saveTasks` call. -/
theorem submit_blank_title_is_noop (env : Env) (st : State)
    (h : trim st.form.title = []) : submit env st = (st, []) := by
  simp [submit, h, truthyStr]

/-- The no-op of C1 on a state in edit mode whose title is two spaces: the
pointer stays set. -/
theorem submit_blank_title_is_noop_witness :
    trim blankTitleEditing.form.title = [] ∧
      submit sampleEnv blankTitleEditing = (blankTitleEditing, []) ∧
      blankTitleEditing.editingId = some (utf16 "id-1") :=
  ⟨by decide, submit_blank_title_is_noop sampleEnv blankTitleEditing (by decide), rfl⟩

/-- C3. In create mode (editing pointer absent) with a title that is not
blank, the submission appends exactly one task to the unchanged collection: its
title, description, deadline and status are the values of the draft (title and
description trimmed), its createdAt is what `nowISO` returns for the current
date, which for a four-digit year is the canonical text of that date, and its
id is the generated identifier, which no earlier task has when the generator
returns an id that is not present. -/
theorem submit_add_appends_task (env : Env) (st : State)
    (hid : st.editingId = none) (ht : trim st.form.title ≠ [])
    (hfresh : ∀ t ∈ st.tasks, t.id ≠ env.genId) :
    ∃ u, (submit env st).1.tasks = st.tasks ++ [u] ∧
      u.title = trim st.form.title ∧ u.description = trim st.form.description ∧
      u.deadline = st.form.deadline ∧ u.status = st.form.status ∧
      u.createdAt = nowISO env.now ∧
      (∀ y : Nat, env.now.fullYear = (y : Int) → 1000 ≤ y → y ≤ 9999 → env.now.month < 12 →
        env.now.date ≤ 31 →
        dateFields u.createdAt = some (y, env.now.month + 1, env.now.date)) ∧
      u.id = env.genId ∧
      ∀ t ∈ st.tasks, t.id ≠ u.id := by
  refine ⟨{ id := env.genId, title := trim st.form.title,
            description := trim st.form.description, deadline := st.form.deadline,
            status := st.form.status, createdAt := nowISO env.now }, ?_, rfl, rfl, rfl, rfl,
          rfl, ?_, rfl, hfresh⟩
  · simp [submit, truthyStr_eq_true ht, hid, truthyId, saveTasks, newData, orElse_nil]
  · intro y hy h1 h2 hm hd
    have hnow : env.now = ⟨(y : Int), env.now.month, env.now.date⟩ := by
      rw [← hy]
    show dateFields (nowISO env.now) = _
    rw [hnow]
    exact dateFields_nowISO y env.now.month env.now.date h1 h2 hm hd

/-- The addition of C3 on a state in create mode. -/
theorem submit_add_appends_task_witness :
    ∃ u, (submit sampleEnv sampleAdding).1.tasks = sampleAdding.tasks ++ [u] ∧
      u.title = trim sampleAdding.form.title ∧
      u.description = trim sampleAdding.form.description ∧
      u.deadline = sampleAdding.form.deadline ∧ u.status = sampleAdding.form.status ∧
      u.createdAt = nowISO sampleEnv.now ∧
      (∀ y : Nat, sampleEnv.now.fullYear = (y : Int) → 1000 ≤ y → y ≤ 9999 →
        sampleEnv.now.month < 12 → sampleEnv.now.date ≤ 31 →
        dateFields u.createdAt = some (y, sampleEnv.now.month + 1, sampleEnv.now.date)) ∧
      u.id = sampleEnv.genId ∧
      ∀ t ∈ sampleAdding.tasks, t.id ≠ u.id :=
  submit_add_appends_task sampleEnv sampleAdding rfl (by decide) (by decide)

/-! ## Deleting -/

/-- C9. Deleting the task with a given id twice leaves the state that deleting
it once leaves. The collection after one deletion has no task with that id, is
a subsequence of the original (relative order kept) in which every task with
another id occurs as often as before, and is the original collection when no
task has that id. -/
theorem delete_twice_eq_once (st : State) (id : JStr) :
    (deleteClick (deleteClick st id).1 id).1 = (deleteClick st id).1 ∧
    (∀ t ∈ (deleteClick st id).1.tasks, t.id ≠ id) ∧
    List.Sublist (deleteClick st id).1.tasks st.tasks ∧
    (∀ t : Task, t.id ≠ id → (deleteClick st id).1.tasks.count t = st.tasks.count t) ∧
    ((∀ t ∈ st.tasks, t.id ≠ id) → (deleteClick st id).1.tasks = st.tasks) := by
  refine ⟨?_, ?_, ?_, ?_, ?_⟩
  · simp [deleteClick, saveTasks, List.filter_filter]
  · intro t ht
    simpa [deleteClick, saveTasks] using (List.mem_filter.mp ht).2
  · exact List.filter_sublist _
  · intro t ht
    simp [deleteClick, saveTasks, List.count_filter, ht]
  · intro h
    simp only [deleteClick, saveTasks]
    exact List.filter_eq_self.mpr fun t htm => by simpa using h t htm

/-! ## Filtering and sorting -/

theorem jsSort_perm {α : Type} (cmp : α → α → Int) (l : List α) : (jsSort cmp l).Perm l :=
  List.perm_insertionSort _ l

theorem render_data_perm_aux (coll : JStr → JStr → Int) (tasks : List Task)
    (filterValue sortValue : JStr) :
    (renderData coll tasks filterValue sortValue).Perm
        (if filterValue = utf16 "All" then tasks
         else tasks.filter fun t => t.status = filterValue) := by
  simp only [renderData]
  by_cases hf : filterValue = utf16 "All"
  · simp only [hf, ne_eq, not_true_eq_false, if_false, if_true]
    split_ifs <;> first | exact jsSort_perm _ _ | exact List.Perm.refl _
  · simp only [hf, ne_eq, not_false_eq_true, if_true, if_false]
    split_ifs <;> first | exact jsSort_perm _ _ | exact List.Perm.refl _

/-- C7. Whatever the collation, the filter key and the sort key (the six
supported ones included), the sequence `render` displays is a permutation of
the tasks selected by the filter: all tasks for the key `All`, otherwise the
tasks whose status is the filter key; so each selected task occurs exactly as
often as in the collection and no other task occurs. -/
theorem render_data_perm (coll : JStr → JStr → Int) (tasks : List Task)
    (filterValue sortValue : JStr) :
    (render coll tasks filterValue sortValue).data.Perm
        (if filterValue = utf16 "All" then tasks
         else tasks.filter fun t => t.status = filterValue) ∧
    ∀ t : Task, (render coll tasks filterValue sortValue).data.count t =
      if filterValue = utf16 "All" ∨ t.status = filterValue then tasks.count t else 0 := by
  have hperm := render_data_perm_aux coll tasks filterValue sortValue
  refine ⟨hperm, ?_⟩
  intro t
  simp only [render]
  rw [hperm.count_eq]
  by_cases hf : filterValue = utf16 "All"
  · simp [hf]
  · by_cases hs : t.status = filterValue
    · simp [hf, hs, List.count_filter]
    · simp only [hf, hs, if_false, or_self]
      apply List.count_eq_zero_of_not_mem
      intro hm
      exact hs (by simpa using (List.mem_filter.mp hm).2)

theorem compareUnits_self (a : JStr) : compareUnits a a = 0 := by
  induction a with
  | nil => rfl
  | cons x l ih => simp [compareUnits, ih]

theorem roundHalfEven_error (q : ℚ) : |(roundHalfEven q : ℚ) - q| ≤ 1 / 2 := by
  have h1 : (⌊q⌋ : ℚ) ≤ q := Int.floor_le q
  have h2 : q < ⌊q⌋ + 1 := Int.lt_floor_add_one q
  unfold roundHalfEven
  rw [abs_le]
  split_ifs with ha hb hc
  · constructor <;> linarith
  · push_cast
    constructor <;> linarith
  · constructor <;> linarith
  · push_cast
    constructor <;> linarith

theorem mathRound_error (x : ℚ) : |(mathRound x : ℚ) - x| ≤ 1 / 2 := by
  have h1 : (⌊x + 1 / 2⌋ : ℚ) ≤ x + 1 / 2 := Int.floor_le _
  have h2 : x + 1 / 2 < ⌊x + 1 / 2⌋ + 1 := Int.lt_floor_add_one _
  unfold mathRound
  rw [abs_le]
  constructor <;> linarith

/-- Rounding a rational in the normal range to binary64 has a relative error of
at most `2 ^ (-53)`. -/
theorem toDouble_error {q : ℚ} (hq : (2 : ℚ) ^ (-1022 : ℤ) ≤ q) :
    |toDouble q - q| ≤ q / 9007199254740992 := by
  have hpos : 0 < q := lt_of_lt_of_le (zpow_pos (by norm_num) _) hq
  have hne : q ≠ 0 := ne_of_gt hpos
  have habs : |q| = q := abs_of_pos hpos
  have hlog : (-1022 : ℤ) ≤ Int.log 2 q := by
    rw [← Int.zpow_le_iff_le_log (by norm_num) hpos]
    simpa using hq
  have hle : ((2 : ℚ)) ^ Int.log 2 q ≤ q := by
    simpa using Int.zpow_log_le_self (b := 2) (by norm_num) hpos
  have hu : (0 : ℚ) < 2 ^ (Int.log 2 q - 52) := zpow_pos (by norm_num) _
  have hsplit : (2 : ℚ) ^ (Int.log 2 q - 52) = 2 ^ Int.log 2 q / 4503599627370496 := by
    rw [zpow_sub₀ (by norm_num : (2 : ℚ) ≠ 0)]
    norm_num
  unfold toDouble
  rw [if_neg hne, habs, max_eq_left hlog]
  have herr := roundHalfEven_error (q / 2 ^ (Int.log 2 q - 52))
  have hmul : |(roundHalfEven (q / 2 ^ (Int.log 2 q - 52)) : ℚ) * 2 ^ (Int.log 2 q - 52) - q| =
      |(roundHalfEven (q / 2 ^ (Int.log 2 q - 52)) : ℚ) - q / 2 ^ (Int.log 2 q - 52)| *
        2 ^ (Int.log 2 q - 52) := by
    rw [← abs_of_pos hu, ← abs_mul, abs_of_pos hu, sub_mul, div_mul_cancel₀ _ (ne_of_gt hu)]
  rw [hmul]
  calc |(roundHalfEven (q / 2 ^ (Int.log 2 q - 52)) : ℚ) - q / 2 ^ (Int.log 2 q - 52)| *
        2 ^ (Int.log 2 q - 52)
      ≤ 1 / 2 * 2 ^ (Int.log 2 q - 52) := mul_le_mul_of_nonneg_right herr (le_of_lt hu)
    _ = 2 ^ Int.log 2 q / 9007199254740992 := by
      rw [hsplit]
      ring
    _ ≤ q / 9007199254740992 := by
      apply div_le_div_of_nonneg_right hle
      norm_num

theorem toDouble_zero : toDouble 0 = 0 := by
  simp [toDouble]

/-- The percentage computed in binary64 is within one half of the exact
quotient, for collections of fewer than `2 ^ 32` tasks. -/
theorem pct_error {d t : ℕ} (hd : 0 < d) (hdt : d ≤ t) (ht : t < 2 ^ 32) :
    |(mathRound (numMul (numDiv d t) 100) : ℚ) - 100 * d / t| ≤ 1 / 2 := by
  have htpos : (0 : ℚ) < t := by exact_mod_cast lt_of_lt_of_le hd hdt
  have hdq : (1 : ℚ) ≤ d := by exact_mod_cast hd
  have hdtq : (d : ℚ) ≤ t := by exact_mod_cast hdt
  have htq : (t : ℚ) ≤ 4294967296 := by
    have : t ≤ 4294967296 := by omega
    exact_mod_cast this
  have hx1 : (d : ℚ) / t ≤ 1 := (div_le_one htpos).mpr hdtq
  have hx0 : (1 : ℚ) / 4294967296 ≤ d / t := by
    rw [div_le_div_iff₀ (by norm_num) htpos]
    nlinarith
  have hsmall : (2 : ℚ) ^ (-1022 : ℤ) ≤ 1 / 4294967296 := by
    have h2 : (1 : ℚ) / 4294967296 = 2 ^ (-32 : ℤ) := by norm_num
    rw [h2]
    exact zpow_le_zpow_right₀ (by norm_num) (by norm_num)
  have e1 := toDouble_error (le_trans hsmall hx0)
  rw [abs_le] at e1
  have hy : (2 : ℚ) ^ (-1022 : ℤ) ≤ toDouble (d / t) * 100 := by
    apply le_trans hsmall
    linarith [e1.1]
  have e2 := toDouble_error hy
  rw [abs_le] at e2
  have e3 := mathRound_error (toDouble (toDouble (d / t) * 100))
  rw [abs_le] at e3
  have hxt : (100 : ℚ) * d / t = 100 * (d / t) := by ring
  -- the integer |p * t - 100 * d| is below t / 2 + 1 / 2
  set p : ℤ := mathRound (numMul (numDiv d t) 100) with hp
  have hpdef : (mathRound (toDouble (toDouble (d / t) * 100)) : ℚ) = p := by
    simp [hp, numMul, numDiv]
  rw [hpdef] at e3
  have hclose : |(p : ℚ) - 100 * (d / t)| ≤ 1 / 2 + 1 / (2 * 4294967296) - 1 / 1000000000000 := by
    rw [abs_le]
    constructor <;> linarith [e1.1, e1.2, e2.1, e2.2, e3.1, e3.2]
  rw [hxt]
  -- scale by t and use integrality
  have hscale : |(p : ℚ) * t - 100 * d| < t / 2 + 1 / 2 := by
    have h1 : (p : ℚ) * t - 100 * d = (p - 100 * (d / t)) * t := by
      field_simp
    rw [h1, abs_mul, abs_of_pos htpos]
    have h2 : |(p : ℚ) - 100 * (d / t)| * t ≤
        (1 / 2 + 1 / (2 * 4294967296) - 1 / 1000000000000) * t :=
      mul_le_mul_of_nonneg_right hclose (le_of_lt htpos)
    nlinarith
  have hint : |p * (t : ℤ) - 100 * (d : ℤ)| * 2 ≤ (t : ℤ) := by
    have h3 : ((|p * (t : ℤ) - 100 * (d : ℤ)| : ℤ) : ℚ) * 2 < (t : ℤ) + 1 := by
      push_cast
      linarith
    have h4 : |p * (t : ℤ) - 100 * (d : ℤ)| * 2 < (t : ℤ) + 1 := by exact_mod_cast h3
    omega
  have hfin : |(p : ℚ) * t - 100 * d| ≤ t / 2 := by
    have h5 : ((|p * (t : ℤ) - 100 * (d : ℤ)| * 2 : ℤ) : ℚ) ≤ ((t : ℤ) : ℚ) := by
      exact_mod_cast hint
    push_cast at h5
    linarith
  have h6 : (p : ℚ) - 100 * (d / t) = ((p : ℚ) * t - 100 * d) / t := by
    field_simp
  rw [h6, abs_div, abs_of_pos htpos, div_le_iff₀ htpos]
  linarith
theorem pct_zero_done (t : ℕ) : mathRound (numMul (numDiv (0 : ℕ) t) 100) = 0 := by
  have h : mathRound (0 : ℚ) = 0 := by
    unfold mathRound
    rw [Int.floor_eq_iff]
    norm_num
  simp [numDiv, numMul, toDouble_zero, h]

theorem pct_close {d t : ℕ} (hdt : d ≤ t) (ht : t < 2 ^ 32) :
    |(mathRound (numMul (numDiv d t) 100) : ℚ) - 100 * d / t| ≤ 1 / 2 := by
  rcases Nat.eq_zero_or_pos d with h0 | hpos
  · subst h0
    rw [pct_zero_done]
    norm_num
  · exact pct_error hpos hdt ht

theorem updateProgress_total (tasks : List Task) :
    (updateProgress tasks).total = tasks.length := rfl

theorem updateProgress_done (tasks : List Task) :
    (updateProgress tasks).done = tasks.countP fun t => t.status = utf16 "Completed" := by
  simp [updateProgress, List.countP_eq_length_filter]

theorem updateProgress_pct (tasks : List Task) :
    (updateProgress tasks).pct =
      if (updateProgress tasks).total ≠ 0 then
        mathRound (numMul (numDiv (updateProgress tasks).done (updateProgress tasks).total) 100)
      else 0 := by
  simp [updateProgress]

/-- C8. Whatever the collation, the filter key and the sort key, the progress
summary of `render` is computed over the full collection (array lengths are
below `2 ^ 32`): `total` is its size and `done` the number of its tasks whose
status is Completed. The percentage is 0 when `total` is 0; otherwise it is an
integer within one half of `100 * done / total`, that is, the quotient rounded
to a nearest whole number; it always lies between 0 and 100; it is 25 for four
tasks with one Completed and 100 for a single Completed task. -/
theorem render_progress_over_full_collection (coll : JStr → JStr → Int) (tasks : List Task)
    (filterValue sortValue : JStr) (hlen : tasks.length < 2 ^ 32) :
    (render coll tasks filterValue sortValue).progress.total = tasks.length ∧
    (render coll tasks filterValue sortValue).progress.done =
      (tasks.countP fun t => t.status = utf16 "Completed") ∧
    (tasks.length = 0 → (render coll tasks filterValue sortValue).progress.pct = 0) ∧
    (tasks.length ≠ 0 →
      |((render coll tasks filterValue sortValue).progress.pct : ℚ) -
        100 * (render coll tasks filterValue sortValue).progress.done /
          (render coll tasks filterValue sortValue).progress.total| ≤ 1 / 2) ∧
    0 ≤ (render coll tasks filterValue sortValue).progress.pct ∧
    (render coll tasks filterValue sortValue).progress.pct ≤ 100 ∧
    ((render coll tasks filterValue sortValue).progress.total = 4 →
      (render coll tasks filterValue sortValue).progress.done = 1 →
      (render coll tasks filterValue sortValue).progress.pct = 25) ∧
    ((render coll tasks filterValue sortValue).progress.total = 1 →
      (render coll tasks filterValue sortValue).progress.done = 1 →
      (render coll tasks filterValue sortValue).progress.pct = 100) := by
  have hrender : (render coll tasks filterValue sortValue).progress = updateProgress tasks := rfl
  rw [hrender]
  have htot := updateProgress_total tasks
  have hdone := updateProgress_done tasks
  have hpct := updateProgress_pct tasks
  have hle : (updateProgress tasks).done ≤ (updateProgress tasks).total := by
    rw [hdone, htot]
    exact List.countP_le_length _
  generalize (updateProgress tasks).pct = p at hpct ⊢
  generalize (updateProgress tasks).done = d at hdone hpct hle ⊢
  generalize (updateProgress tasks).total = t at htot hpct hle ⊢
  have hzero : t = 0 → p = 0 := by
    intro h
    simp [hpct, h]
  have hclose : t ≠ 0 → |(p : ℚ) - 100 * d / t| ≤ 1 / 2 := by
    intro h
    rw [hpct, if_pos h]
    exact pct_close hle (htot ▸ hlen)
  have hexact : ∀ k : ℤ, t ≠ 0 → (100 * d : ℚ) / t = k → p = k := by
    intro k h hk
    have h1 := hclose h
    rw [hk, abs_le] at h1
    have h2 : ((p - k : ℤ) : ℚ) < 1 := by
      push_cast
      linarith [h1.2]
    have h3 : ((-1 : ℤ) : ℚ) < ((p - k : ℤ) : ℚ) := by
      push_cast
      linarith [h1.1]
    have h4 : p - k < 1 := by exact_mod_cast h2
    have h5 : -1 < p - k := by exact_mod_cast h3
    omega
  have hrange : 0 ≤ p ∧ p ≤ 100 := by
    rcases Nat.eq_zero_or_pos t with h0 | hpos
    · rw [hzero h0]
      omega
    · have h1 := hclose (Nat.pos_iff_ne_zero.mp hpos)
      rw [abs_le] at h1
      have htq : (0 : ℚ) < t := by exact_mod_cast hpos
      have hdq : (d : ℚ) ≤ t := by exact_mod_cast hle
      have hq0 : (0 : ℚ) ≤ 100 * d / t := by positivity
      have hq1 : (100 : ℚ) * d / t ≤ 100 := by
        rw [div_le_iff₀ htq]
        linarith
      have h2 : ((-1 : ℤ) : ℚ) < (p : ℚ) := by
        push_cast
        linarith [h1.1]
      have h3 : (p : ℚ) < ((101 : ℤ) : ℚ) := by
        push_cast
        linarith [h1.2]
      have h4 : -1 < p := by exact_mod_cast h2
      have h5 : p < 101 := by exact_mod_cast h3
      omega
  refine ⟨htot, hdone, ?_, ?_, hrange.1, hrange.2, ?_, ?_⟩
  · intro h
    exact hzero (htot.trans h)
  · intro h
    exact hclose (by rwa [htot])
  · intro h4 h1
    apply hexact 25 (by omega)
    rw [h4, h1]
    norm_num
  · intro h1 hd1
    apply hexact 100 (by omega)
    rw [h1, hd1]
    norm_num

/-- The progress of C8 on four tasks with one Completed, under a filter that
hides the Completed task: 1 of 4 and 25 percent. -/
theorem render_progress_over_full_collection_witness :
    fourTasks.length < 2 ^ 32 ∧
    (render compareUnits fourTasks (utf16 "Pending") (utf16 "title-asc")).progress.total = 4 ∧
    (render compareUnits fourTasks (utf16 "Pending") (utf16 "title-asc")).progress.done = 1 ∧
    (render compareUnits fourTasks (utf16 "Pending") (utf16 "title-asc")).progress.pct = 25 :=
  have hlen : fourTasks.length < 2 ^ 32 := by decide
  have h := render_progress_over_full_collection compareUnits fourTasks (utf16 "Pending")
    (utf16 "title-asc") hlen
  ⟨hlen, h.1, h.2.1.trans (by decide), h.2.2.2.2.2.2.1 h.1 (h.2.1.trans (by decide))⟩
/-! ## JSON round trip -/

theorem hexVal_hexDigit {d : Nat} (h : d < 16) : hexVal (hexDigit d) = some d := by
  interval_cases d <;> rfl

theorem hex4_unicodeEscape {c : Nat} (h : c < 65536) :
    hex4 (hexDigit (c / 4096 % 16)) (hexDigit (c / 256 % 16)) (hexDigit (c / 16 % 16))
      (hexDigit (c % 16)) = some c := by
  simp only [hex4, hexVal_hexDigit (Nat.mod_lt _ (by norm_num : 16 > 0))]
  congr 1
  omega

theorem parseStringBody_quote (rest : JStr) : parseStringBody (34 :: rest) = some ([], rest) := by
  simp [parseStringBody]

theorem parseStringBody_raw {c : Nat} (rest : JStr) (h34 : c ≠ 34) (h92 : c ≠ 92)
    (h32 : 32 ≤ c) :
    parseStringBody (c :: rest) =
      match parseStringBody rest with
      | some (s, r) => some (c :: s, r)
      | none => none := by
  rw [parseStringBody]
  · simp [h34, h92, Nat.not_lt.mpr h32]
  · intros
    omega
  · intros
    omega

theorem parseStringBody_simple {e u : Nat} (rest : JStr) (hu : simpleEscape e = some u) :
    parseStringBody (92 :: e :: rest) =
      match parseStringBody rest with
      | some (s, r) => some (u :: s, r)
      | none => none := by
  have he : e ≠ 117 := by
    intro h
    rw [h] at hu
    simp [simpleEscape] at hu
  rw [parseStringBody]
  · simp only [hu]
    cases parseStringBody rest <;> rfl
  · intros
    omega

theorem parseStringBody_unicode {a b c d u : Nat} (rest : JStr) (hu : hex4 a b c d = some u) :
    parseStringBody (92 :: 117 :: a :: b :: c :: d :: rest) =
      match parseStringBody rest with
      | some (s, r) => some (u :: s, r)
      | none => none := by
  rw [parseStringBody]
  simp only [hu]
  cases parseStringBody rest <;> rfl
/-- Reading back the text of one code unit yields that code unit. -/
theorem parseStringBody_quoteUnit (c : Nat) {tail s r : JStr}
    (h : parseStringBody tail = some (s, r)) :
    parseStringBody (quoteUnit c ++ tail) = some (c :: s, r) := by
  unfold quoteUnit
  split_ifs with h8 h9 h10 h12 h13 h34 h92 hesc
  · subst h8
    rw [show [92, 98] ++ tail = 92 :: 98 :: tail from rfl,
      parseStringBody_simple (e := 98) (u := 8) tail rfl, h]
  · subst h9
    rw [show [92, 116] ++ tail = 92 :: 116 :: tail from rfl,
      parseStringBody_simple (e := 116) (u := 9) tail rfl, h]
  · subst h10
    rw [show [92, 110] ++ tail = 92 :: 110 :: tail from rfl,
      parseStringBody_simple (e := 110) (u := 10) tail rfl, h]
  · subst h12
    rw [show [92, 102] ++ tail = 92 :: 102 :: tail from rfl,
      parseStringBody_simple (e := 102) (u := 12) tail rfl, h]
  · subst h13
    rw [show [92, 114] ++ tail = 92 :: 114 :: tail from rfl,
      parseStringBody_simple (e := 114) (u := 13) tail rfl, h]
  · subst h34
    rw [show [92, 34] ++ tail = 92 :: 34 :: tail from rfl,
      parseStringBody_simple (e := 34) (u := 34) tail rfl, h]
  · subst h92
    rw [show [92, 92] ++ tail = 92 :: 92 :: tail from rfl,
      parseStringBody_simple (e := 92) (u := 92) tail rfl, h]
  · have hc : c < 65536 := by
      simp only [isHighSurrogate, isLowSurrogate, Bool.or_eq_true, Bool.and_eq_true,
        decide_eq_true_eq] at hesc
      omega
    rw [show unicodeEscape c ++ tail = 92 :: 117 :: hexDigit (c / 4096 % 16) ::
        hexDigit (c / 256 % 16) :: hexDigit (c / 16 % 16) :: hexDigit (c % 16) :: tail from rfl,
      parseStringBody_unicode tail (hex4_unicodeEscape hc), h]
  · have h32 : 32 ≤ c := by
      simp only [Bool.or_eq_true, decide_eq_true_eq, not_or, not_lt] at hesc
      exact hesc.1.1
    rw [show [c] ++ tail = c :: tail from rfl, parseStringBody_raw tail h34 h92 h32, h]

/-- Reading back the quoted text of a string yields the string and stops
after the closing quotation mark. -/
theorem parseStringBody_quoteBody (s rest : JStr) :
    parseStringBody (quoteBody s ++ 34 :: rest) = some (s, rest) := by
  induction s using quoteBody.induct with
  | case1 => simp [quoteBody, parseStringBody_quote]
  | case2 c =>
    rw [quoteBody]
    exact parseStringBody_quoteUnit c (parseStringBody_quote rest)
  | case3 c d l hpair ih =>
    rw [quoteBody, if_pos hpair]
    simp only [isHighSurrogate, isLowSurrogate, Bool.and_eq_true, decide_eq_true_eq] at hpair
    rw [show c :: d :: quoteBody l ++ 34 :: rest = c :: (d :: (quoteBody l ++ 34 :: rest)) from rfl,
      parseStringBody_raw _ (by omega) (by omega) (by omega),
      parseStringBody_raw _ (by omega) (by omega) (by omega), ih]
  | case4 c d l hpair ih =>
    rw [quoteBody, if_neg hpair, List.append_assoc]
    exact parseStringBody_quoteUnit c ih

theorem parseStringBody_quoteJSONString (s rest : JStr) :
    parseStringBody (quoteBody s ++ [34] ++ rest) = some (s, rest) := by
  rw [List.append_assoc]
  exact parseStringBody_quoteBody s rest
theorem serializeMember_append (k v tail : JStr) :
    serializeMember k v ++ tail =
      34 :: (quoteBody k ++ 34 :: 58 :: 34 :: (quoteBody v ++ 34 :: tail)) := by
  simp [serializeMember, quoteJSONString]

theorem parseValue_string (n : Nat) (v rest : JStr) :
    parseValue (n + 1) (34 :: (quoteBody v ++ 34 :: rest)) = some (JVal.str v, rest) := by
  simp [parseValue, parseStringBody_quoteBody]

theorem parseMembers_last (n : Nat) (k v rest : JStr) :
    parseMembers (n + 2) (serializeMember k v ++ 125 :: rest) =
      some ([(k, JVal.str v)], rest) := by
  rw [serializeMember_append, parseMembers]
  simp only [parseStringBody_quoteBody]
  simp [skipWs, isJsonWs, parseValue_string]

theorem parseMembers_more (n : Nat) (k v tail : JStr) :
    parseMembers (n + 2) (serializeMember k v ++ 44 :: 34 :: tail) =
      (parseMembers (n + 1) (34 :: tail)).map fun p => ((k, JVal.str v) :: p.1, p.2) := by
  rw [serializeMember_append, parseMembers]
  simp only [parseStringBody_quoteBody]
  simp [skipWs, isJsonWs, parseValue_string]

/-- Reading back the members of a serialized object of string values. -/
theorem parseMembers_joinComma :
    ∀ (kvs : List (JStr × JStr)) (n : Nat) (rest : JStr), kvs ≠ [] → kvs.length < n →
      parseMembers n (joinComma (kvs.map fun kv => serializeMember kv.1 kv.2) ++ 125 :: rest) =
        some (kvs.map fun kv => (kv.1, JVal.str kv.2), rest)
  | [], _, _, h, _ => absurd rfl h
  | [kv], n, rest, _, hn => by
    obtain ⟨m, rfl⟩ : ∃ m, n = m + 2 := ⟨n - 2, by simp at hn; omega⟩
    simp only [List.map, joinComma]
    exact parseMembers_last m kv.1 kv.2 rest
  | kv :: kv2 :: tl, n, rest, _, hn => by
    obtain ⟨m, rfl⟩ : ∃ m, n = m + 2 := ⟨n - 2, by simp at hn; omega⟩
    have ih := parseMembers_joinComma (kv2 :: tl) (m + 1) rest (by simp)
      (by simp at hn ⊢; omega)
    simp only [List.map, joinComma] at ih ⊢
    have hstart : ∀ tail : JStr, serializeMember kv2.1 kv2.2 ++ tail =
        34 :: (quoteBody kv2.1 ++ 34 :: 58 :: 34 :: (quoteBody kv2.2 ++ 34 :: tail)) :=
      serializeMember_append kv2.1 kv2.2
    cases tl with
    | nil =>
      simp only [List.map, joinComma] at ih ⊢
      rw [List.append_assoc, List.cons_append, hstart, parseMembers_more, ← hstart, ih]
      rfl
    | cons kv3 tl2 =>
      simp only [List.map, joinComma] at ih ⊢
      rw [List.append_assoc, List.cons_append, List.append_assoc, hstart, parseMembers_more,
        ← hstart, ← List.append_assoc, ih]
      rfl
theorem serializeTask_append (t : Task) (rest : JStr) :
    serializeTask t ++ rest =
      123 :: (joinComma (t.members.map fun kv => serializeMember kv.1 kv.2) ++ 125 :: rest) := by
  simp [serializeTask]

theorem joinComma_members_head (t : Task) (rest : JStr) :
    ∃ tail, joinComma (t.members.map fun kv => serializeMember kv.1 kv.2) ++ 125 :: rest =
      34 :: tail := by
  simp only [Task.members, List.map, joinComma]
  rw [List.append_assoc, serializeMember_append]
  exact ⟨_, rfl⟩

/-- Reading back the text of one task object. -/
theorem parseValue_serializeTask (t : Task) (n : Nat) (rest : JStr) :
    parseValue (n + 8) (serializeTask t ++ rest) = some (t.toJVal, rest) := by
  rw [serializeTask_append, parseValue]
  obtain ⟨tail, htail⟩ := joinComma_members_head t rest
  have hm := parseMembers_joinComma t.members (n + 7) rest (by simp [Task.members])
    (by simp [Task.members])
  rw [htail] at hm ⊢
  simp [skipWs, isJsonWs, hm, Task.toJVal]

theorem serializeTask_head (t : Task) (rest : JStr) :
    ∃ tail, serializeTask t ++ rest = 123 :: tail :=
  ⟨_, serializeTask_append t rest⟩

/-- Reading back the elements of a serialized array of task objects. -/
theorem parseElements_joinComma :
    ∀ (ts : List Task) (n : Nat) (rest : JStr), ts ≠ [] → ts.length + 8 ≤ n →
      parseElements n (joinComma (ts.map serializeTask) ++ 93 :: rest) =
        some (ts.map Task.toJVal, rest)
  | [], _, _, h, _ => absurd rfl h
  | [t], n, rest, _, hn => by
    obtain ⟨m, rfl⟩ : ∃ m, n = m + 9 := ⟨n - 9, by simp at hn; omega⟩
    simp only [List.map, joinComma]
    rw [parseElements, parseValue_serializeTask]
    simp [skipWs, isJsonWs]
  | t :: t2 :: tl, n, rest, _, hn => by
    obtain ⟨m, rfl⟩ : ∃ m, n = m + 9 := ⟨n - 9, by simp at hn; omega⟩
    have ih := parseElements_joinComma (t2 :: tl) (m + 8) rest (by simp)
      (by simp at hn ⊢; omega)
    obtain ⟨tail, htail⟩ : ∃ tail, joinComma ((t2 :: tl).map serializeTask) ++ 93 :: rest =
        123 :: tail := by
      cases tl with
      | nil =>
        simp only [List.map, joinComma]
        exact serializeTask_head t2 _
      | cons t3 tl2 =>
        simp only [List.map, joinComma]
        rw [List.append_assoc]
        exact serializeTask_head t2 _
    have hsplit : joinComma ((t :: t2 :: tl).map serializeTask) ++ 93 :: rest =
        serializeTask t ++ 44 :: (joinComma ((t2 :: tl).map serializeTask) ++ 93 :: rest) := by
      simp [joinComma]
    rw [hsplit, parseElements, parseValue_serializeTask]
    rw [htail] at ih ⊢
    simp [skipWs, isJsonWs, ih]

theorem length_serializeTask (t : Task) : 9 ≤ (serializeTask t).length := by
  simp only [serializeTask, Task.members, List.map, joinComma, serializeMember, quoteJSONString,
    List.length_cons, List.length_append, List.length_nil]
  omega

theorem length_joinComma :
    ∀ l : List JStr, (∀ x ∈ l, 9 ≤ x.length) → 9 * l.length ≤ (joinComma l).length
  | [], _ => by simp [joinComma]
  | [x], h => by
    have := h x (List.mem_singleton_self x)
    simp only [joinComma, List.length_cons, List.length_nil]
    omega
  | x :: y :: l, h => by
    have hx := h x (List.mem_cons_self x _)
    have ih := length_joinComma (y :: l) fun z hz => h z (List.mem_cons_of_mem x hz)
    simp only [joinComma, List.length_cons, List.length_append] at ih ⊢
    omega

theorem length_stringifyTasks (ts : List Task) :
    9 * ts.length + 2 ≤ (stringifyTasks ts).length := by
  have h := length_joinComma (ts.map serializeTask) (by
    intro x hx
    obtain ⟨t, -, rfl⟩ := List.mem_map.mp hx
    exact length_serializeTask t)
  simp only [stringifyTasks, List.length_cons, List.length_append, List.length_map,
    List.length_nil] at h ⊢
  omega

/-- The text `JSON.stringify` writes for a task collection parses back to the
value of that collection. -/
theorem jsonParse_stringifyTasks (ts : List Task) :
    jsonParse (stringifyTasks ts) = some (tasksToJVal ts) := by
  have hlen := length_stringifyTasks ts
  cases ts with
  | nil => rfl
  | cons t tl =>
    obtain ⟨m, hm⟩ : ∃ m, (stringifyTasks (t :: tl)).length = m + 9 + tl.length :=
      ⟨(stringifyTasks (t :: tl)).length - 9 - tl.length, by simp at hlen; omega⟩
    have he := parseElements_joinComma (t :: tl) (m + 9 + tl.length) []
      (by simp) (by simp; omega)
    obtain ⟨tail, htail⟩ : ∃ tail, joinComma ((t :: tl).map serializeTask) ++ [93] =
        123 :: tail := by
      cases tl with
      | nil =>
        simp only [List.map, joinComma]
        exact serializeTask_head t _
      | cons t3 tl2 =>
        simp only [List.map, joinComma]
        rw [List.append_assoc]
        exact serializeTask_head t _
    unfold jsonParse
    rw [hm]
    have htext : stringifyTasks (t :: tl) = 91 :: 123 :: tail := by
      rw [← htail]
      rfl
    rw [htext]
    rw [htail] at he
    simp [skipWs, isJsonWs, parseValue, he, tasksToJVal]

theorem decodeTask_toJVal (t : Task) : decodeTask t.toJVal = some t := by
  rfl

theorem decodeTasks_tasksToJVal (ts : List Task) : decodeTasks (tasksToJVal ts) = some ts := by
  simp only [decodeTasks, tasksToJVal]
  induction ts with
  | nil => rfl
  | cons t tl ih =>
    simp only [List.map, decodeAll, decodeTask_toJVal]
    rw [ih]
/-! ## Storage -/

/-- C10. Saving a task collection (the empty one included) and loading it
again yields exactly the saved collection: `loadTasks` returns the array of the
saved task objects, which reads back as the same tasks in the same order, each
with the same id, title, description, deadline, status and createdAt. -/
theorem load_after_save (st : State) :
    loadTasks (saveTasks st).storage = tasksToJVal st.tasks ∧
    decodeTasks (loadTasks (saveTasks st).storage) = some st.tasks := by
  have h : loadTasks (saveTasks st).storage = tasksToJVal st.tasks := by
    simp [loadTasks, saveTasks, jsonParse_stringifyTasks, tasksToJVal, JVal.truthy]
  exact ⟨h, by rw [h, decodeTasks_tasksToJVal]⟩

theorem skipWs_length_le : ∀ s : JStr, (skipWs s).length ≤ s.length
  | [] => by simp [skipWs]
  | c :: cs => by
    have ih := skipWs_length_le cs
    simp only [skipWs]
    split_ifs
    · simp only [List.length_cons]
      omega
    · exact le_refl _

theorem parseStringBody_length_lt :
    ∀ (n : Nat) (s x r : JStr), s.length ≤ n → parseStringBody s = some (x, r) →
      r.length < s.length
  | 0, s, x, r, hn, h => by
    have : s = [] := List.length_eq_zero.mp (Nat.le_zero.mp hn)
    subst this
    simp [parseStringBody] at h
  | n + 1, s, x, r, hn, h => by
    unfold parseStringBody at h
    split at h
    · simp at h
    · rename_i a b c d rest
      split at h
      · rename_i u s1 r1 hu hp
        simp only [Option.some.injEq, Prod.mk.injEq] at h
        obtain ⟨-, rfl⟩ := h
        have := parseStringBody_length_lt n rest s1 r1 (by simp at hn; omega) hp
        simp only [List.length_cons]
        omega
      · simp at h
    · rename_i e rest _
      split at h
      · rename_i u s1 r1 hu hp
        simp only [Option.some.injEq, Prod.mk.injEq] at h
        obtain ⟨-, rfl⟩ := h
        have := parseStringBody_length_lt n rest s1 r1 (by simp at hn; omega) hp
        simp only [List.length_cons]
        omega
      · simp at h
    · rename_i c rest _ _
      split_ifs at h with h1 h2
      · simp only [Option.some.injEq, Prod.mk.injEq] at h
        obtain ⟨-, rfl⟩ := h
        simp
      · split at h
        · rename_i s1 r1 hp
          simp only [Option.some.injEq, Prod.mk.injEq] at h
          obtain ⟨-, rfl⟩ := h
          have := parseStringBody_length_lt n rest s1 r1 (by simp at hn; omega) hp
          simp only [List.length_cons]
          omega
        · simp at h

theorem takeDigits_length_le : ∀ s : JStr, (takeDigits s).2.length ≤ s.length
  | [] => by simp [takeDigits]
  | c :: cs => by
    have ih := takeDigits_length_le cs
    simp only [takeDigits]
    split_ifs
    · simp only [List.length_cons]
      omega
    · exact le_refl _

theorem takeDigits_length_lt {s : JStr} (h : (takeDigits s).1 ≠ []) :
    (takeDigits s).2.length < s.length := by
  cases s with
  | nil => simp [takeDigits] at h
  | cons c cs =>
    have ih := takeDigits_length_le cs
    simp only [takeDigits] at h ⊢
    split_ifs at h ⊢
    · simp only [List.length_cons]
      omega
    · simp at h

theorem parseFraction_length_le {s r : JStr} {fp : List Nat}
    (h : parseFraction s = some (fp, r)) : r.length ≤ s.length := by
  unfold parseFraction at h
  repeat' split at h
  all_goals first | (simp at h; done) | skip
  · simp only [Option.some.injEq] at h
    have h2 : (takeDigits _).2 = r := congrArg Prod.snd h
    rw [← h2]
    exact le_trans (takeDigits_length_le _) (by simp only [List.length_cons]; omega)
  · simp only [Option.some.injEq, Prod.mk.injEq] at h
    rw [h.2]

theorem parseExponent_length_le {s r : JStr} {ex : Int}
    (h : parseExponent s = some (ex, r)) : r.length ≤ s.length := by
  unfold parseExponent at h
  repeat' split at h
  all_goals first | (simp at h; done) | skip
  all_goals simp only [Option.some.injEq, Prod.mk.injEq] at h
  all_goals obtain ⟨-, rfl⟩ := h
  all_goals first
    | exact le_refl _
    | exact le_trans (takeDigits_length_le _) (by simp only [List.length_cons]; omega)

theorem parseUnsigned_length_lt {neg : Bool} {s r : JStr} {v : JVal}
    (h : parseUnsigned neg s = some (v, r)) : r.length < s.length := by
  unfold parseUnsigned at h
  simp only at h
  split_ifs at h with h1 h2
  split at h
  · simp at h
  · rename_i fp s3 hf
    split at h
    · simp at h
    · rename_i ex s4 he
      simp only [Option.some.injEq, Prod.mk.injEq] at h
      have a1 := takeDigits_length_lt h1
      have a2 := parseFraction_length_le hf
      have a3 := parseExponent_length_le he
      rw [h.2] at a3
      omega

theorem parseNumber_length_lt {s r : JStr} {v : JVal}
    (h : parseNumber s = some (v, r)) : r.length < s.length := by
  unfold parseNumber at h
  split at h
  · have := parseUnsigned_length_lt h
    simp only [List.length_cons]
    omega
  · exact parseUnsigned_length_lt h

theorem parseLiteral_length_lt {s r : JStr} {v : JVal}
    (h : parseLiteral s = some (v, r)) : r.length < s.length := by
  unfold parseLiteral at h
  split at h
  all_goals first | (simp at h; done) | skip
  all_goals simp only [Option.some.injEq, Prod.mk.injEq] at h
  all_goals obtain ⟨-, rfl⟩ := h
  all_goals simp only [List.length_cons]
  all_goals omega
theorem parseValue_bound_step (n : Nat) (ihE : ElementsBoundFree n) (ihM : MembersBoundFree n) :
    ValueBoundFree (n + 1) := by
  intro s v r h
  cases s with
  | nil => simp [parseValue] at h
  | cons c cs =>
    have hws := skipWs_length_le cs
    rw [parseValue] at h
    split_ifs at h with h91 h123 h34 hnum
    · -- an array
      split at h
      · rename_i r1 hsk
        simp only [Option.some.injEq, Prod.mk.injEq] at h
        obtain ⟨rfl, rfl⟩ := h
        rw [hsk] at hws
        simp only [List.length_cons] at hws ⊢
        refine ⟨by omega, ?_⟩
        intro m hm
        obtain ⟨k, rfl⟩ : ∃ k, m = k + 1 := ⟨m - 1, by omega⟩
        rw [parseValue, if_pos h91, hsk]
      · rename_i s1 hne
        obtain ⟨p, hp, hpe⟩ := Option.map_eq_some'.mp h
        obtain ⟨vs, r1⟩ := p
        simp only [Prod.mk.injEq] at hpe
        obtain ⟨rfl, rfl⟩ := hpe
        obtain ⟨hlt, hst⟩ := ihE _ _ _ hp
        simp only [List.length_cons]
        refine ⟨by omega, ?_⟩
        intro m hm
        obtain ⟨k, rfl⟩ : ∃ k, m = k + 1 := ⟨m - 1, by omega⟩
        rw [parseValue, if_pos h91]
        split
        · rename_i r2 hsk
          exact absurd hsk (hne r2)
        · rw [hst k (by omega)]
          rfl
    · -- an object
      split at h
      · rename_i r1 hsk
        simp only [Option.some.injEq, Prod.mk.injEq] at h
        obtain ⟨rfl, rfl⟩ := h
        rw [hsk] at hws
        simp only [List.length_cons] at hws ⊢
        refine ⟨by omega, ?_⟩
        intro m hm
        obtain ⟨k, rfl⟩ : ∃ k, m = k + 1 := ⟨m - 1, by omega⟩
        rw [parseValue, if_neg h91, if_pos h123, hsk]
      · rename_i s1 hne
        obtain ⟨p, hp, hpe⟩ := Option.map_eq_some'.mp h
        obtain ⟨kvs, r1⟩ := p
        simp only [Prod.mk.injEq] at hpe
        obtain ⟨rfl, rfl⟩ := hpe
        obtain ⟨hlt, hst⟩ := ihM _ _ _ hp
        simp only [List.length_cons]
        refine ⟨by omega, ?_⟩
        intro m hm
        obtain ⟨k, rfl⟩ : ∃ k, m = k + 1 := ⟨m - 1, by omega⟩
        rw [parseValue, if_neg h91, if_pos h123]
        split
        · rename_i r2 hsk
          exact absurd hsk (hne r2)
        · rw [hst k (by omega)]
          rfl
    · -- a string
      obtain ⟨p, hp, hpe⟩ := Option.map_eq_some'.mp h
      obtain ⟨x, r1⟩ := p
      simp only [Prod.mk.injEq] at hpe
      obtain ⟨rfl, rfl⟩ := hpe
      have hlt := parseStringBody_length_lt cs.length cs _ _ (le_refl _) hp
      simp only [List.length_cons]
      refine ⟨by omega, ?_⟩
      intro m hm
      obtain ⟨k, rfl⟩ : ∃ k, m = k + 1 := ⟨m - 1, by omega⟩
      rw [parseValue, if_neg h91, if_neg h123, if_pos h34, hp]
      rfl
    · -- a number
      have hlt := parseNumber_length_lt h
      refine ⟨hlt, ?_⟩
      intro m hm
      obtain ⟨k, rfl⟩ : ∃ k, m = k + 1 := ⟨m - 1, by omega⟩
      rw [parseValue, if_neg h91, if_neg h123, if_neg h34, if_pos hnum, h]
    · -- a literal
      have hlt := parseLiteral_length_lt h
      refine ⟨hlt, ?_⟩
      intro m hm
      obtain ⟨k, rfl⟩ : ∃ k, m = k + 1 := ⟨m - 1, by omega⟩
      rw [parseValue, if_neg h91, if_neg h123, if_neg h34, if_neg hnum, h]

theorem parseElements_bound_step (n : Nat) (ihV : ValueBoundFree n)
    (ihE : ElementsBoundFree n) : ElementsBoundFree (n + 1) := by
  intro s vs r h
  rw [parseElements] at h
  split at h
  · simp at h
  · rename_i v r0 hv
    obtain ⟨hlt0, hst0⟩ := ihV _ _ _ hv
    have hws := skipWs_length_le r0
    split at h
    · rename_i r1 hsk
      obtain ⟨p, hp, hpe⟩ := Option.map_eq_some'.mp h
      obtain ⟨ws, r2⟩ := p
      simp only [Prod.mk.injEq] at hpe
      obtain ⟨rfl, rfl⟩ := hpe
      obtain ⟨hlt, hst⟩ := ihE _ _ _ hp
      have hws1 := skipWs_length_le r1
      rw [hsk] at hws
      simp only [List.length_cons] at hws
      refine ⟨by omega, ?_⟩
      intro m hm
      obtain ⟨k, rfl⟩ : ∃ k, m = k + 1 := ⟨m - 1, by omega⟩
      rw [parseElements, hst0 k (by omega)]
      simp only [hsk]
      rw [hst k (by omega)]
      rfl
    · rename_i r1 hsk
      simp only [Option.some.injEq, Prod.mk.injEq] at h
      obtain ⟨rfl, rfl⟩ := h
      rw [hsk] at hws
      simp only [List.length_cons] at hws
      refine ⟨by omega, ?_⟩
      intro m hm
      obtain ⟨k, rfl⟩ : ∃ k, m = k + 1 := ⟨m - 1, by omega⟩
      rw [parseElements, hst0 k (by omega)]
      simp only [hsk]
    · simp at h

theorem parseMembers_bound_step (n : Nat) (ihV : ValueBoundFree n)
    (ihM : MembersBoundFree n) : MembersBoundFree (n + 1) := by
  intro s kvs r h
  unfold parseMembers at h
  split at h
  · rename_i s1
    split at h
    · simp at h
    · rename_i k r0 hk
      have hlt0 := parseStringBody_length_lt s1.length s1 k r0 (le_refl _) hk
      have hws0 := skipWs_length_le r0
      split at h
      · rename_i r1 hsk0
        rw [hsk0] at hws0
        simp only [List.length_cons] at hws0
        have hws1 := skipWs_length_le r1
        split at h
        · simp at h
        · rename_i v r2 hv
          obtain ⟨hltv, hstv⟩ := ihV _ _ _ hv
          have hws2 := skipWs_length_le r2
          split at h
          · rename_i r3 hsk2
            obtain ⟨p, hp, hpe⟩ := Option.map_eq_some'.mp h
            obtain ⟨ws, r4⟩ := p
            simp only [Prod.mk.injEq] at hpe
            obtain ⟨rfl, rfl⟩ := hpe
            obtain ⟨hlt, hst⟩ := ihM _ _ _ hp
            have hws3 := skipWs_length_le r3
            rw [hsk2] at hws2
            simp only [List.length_cons] at hws2 ⊢
            refine ⟨by omega, ?_⟩
            intro m hm
            obtain ⟨j, rfl⟩ : ∃ j, m = j + 1 := ⟨m - 1, by omega⟩
            rw [parseMembers]
            simp only [hk, hsk0]
            rw [hstv j (by omega)]
            simp only [hsk2]
            rw [hst j (by omega)]
            rfl
          · rename_i r3 hsk2
            simp only [Option.some.injEq, Prod.mk.injEq] at h
            obtain ⟨rfl, rfl⟩ := h
            rw [hsk2] at hws2
            simp only [List.length_cons] at hws2 ⊢
            refine ⟨by omega, ?_⟩
            intro m hm
            obtain ⟨j, rfl⟩ : ∃ j, m = j + 1 := ⟨m - 1, by omega⟩
            rw [parseMembers]
            simp only [hk, hsk0]
            rw [hstv j (by omega)]
            simp only [hsk2]
          · simp at h
      · simp at h
  · simp at h

/-- Every successful read is independent of the bound. -/
theorem parse_bound_free :
    ∀ n : Nat, ValueBoundFree n ∧ ElementsBoundFree n ∧ MembersBoundFree n
  | 0 => by
    refine ⟨?_, ?_, ?_⟩
    · intro s v r h
      simp [parseValue] at h
    · intro s vs r h
      simp [parseElements] at h
    · intro s kvs r h
      simp [parseMembers] at h
  | n + 1 => by
    obtain ⟨hV, hE, hM⟩ := parse_bound_free n
    exact ⟨parseValue_bound_step n hE hM, parseElements_bound_step n hV hE,
      parseMembers_bound_step n hV hM⟩

/-- The result of `jsonParse` is the one every larger bound gives: the bound
`s.length + 1` is never the reason for a failure. -/
theorem jsonParse_bound_free (s : JStr) (n : Nat) (hn : s.length < n) :
    (match parseValue n (skipWs s) with
      | some (v, r) => if skipWs r = [] then some v else none
      | none => none) = jsonParse s := by
  have hws := skipWs_length_le s
  unfold jsonParse
  cases h1 : parseValue n (skipWs s) with
  | some p =>
    obtain ⟨v, r⟩ := p
    obtain ⟨-, hst⟩ := (parse_bound_free n).1 _ _ _ h1
    rw [hst (s.length + 1) (by omega)]
  | none =>
    cases h2 : parseValue (s.length + 1) (skipWs s) with
    | none => rfl
    | some p =>
      obtain ⟨v, r⟩ := p
      obtain ⟨-, hst⟩ := (parse_bound_free (s.length + 1)).1 _ _ _ h2
      rw [hst n (by omega)] at h1
      exact absurd h1 (by simp)

end TaskManager
